import Mathlib

set_option maxRecDepth 8000

/-! Verification of the data-acquisition core of the HIP-3 markets dashboard
(`src/api.py`).  The Python functions are shallowly embedded as pure Lean
functions: the HTTP server, the string-to-float parser of the standard
library and the ISO-8601 parser are abstract oracles passed as arguments,
machine floats are modelled by `ℚ`, `datetime` objects by wall-clock epoch
milliseconds plus an optional timezone offset, and Python dictionaries by
functions into `Option`. -/

/-! ### HTTP client with backoff: `_post` (api.py lines 17-30) -/

/-- Trace of one `_post(payload)` call: how many HTTP requests were issued,
which sleeps (in seconds) were performed, and the final outcome — either the
parsed body or the status code of the response that made
`raise_for_status` raise. -/
structure PostTrace (V : Type) where
  requests : Nat
  sleeps : List ℚ
  outcome : Except Nat V

/-- `Response.raise_for_status()` raises exactly for status codes 400-599. -/
def isHttpError (s : Nat) : Bool := 400 ≤ s && s < 600

/-- The retry loop of `_post` (lines 19-26).  `server n` yields status code
and body of the `n`-th request issued for this payload; `i` counts requests
already issued, `d` is the current backoff delay (doubled after each sleep,
line 23) and `sl` accumulates performed sleeps in reverse.  When the retry
budget reaches `0` the final unconditional attempt of lines 28-30 runs: its
failure is not caught. -/
def postAux {V : Type} (server : Nat → Nat × V) : Nat → Nat → ℚ → List ℚ → PostTrace V
  | 0, i, _, sl =>
    { requests := i + 1, sleeps := sl.reverse,
      outcome :=
        if isHttpError (server i).1 then .error (server i).1 else .ok (server i).2 }
  | n + 1, i, d, sl =>
    if (server i).1 = 429 then postAux server n (i + 1) (d * 2) (d :: sl)
    else if isHttpError (server i).1 then
      { requests := i + 1, sleeps := sl.reverse, outcome := .error (server i).1 }
    else
      { requests := i + 1, sleeps := sl.reverse, outcome := .ok (server i).2 }

/-- `_post(payload, retries)` (line 17), with the HTTP exchange abstracted
into `server`. -/
def post {V : Type} (server : Nat → Nat × V) (retries : Nat) : PostTrace V :=
  postAux server retries 0 1 []

/-- C1: for every payload, `_post` sleeps the current delay and doubles it
(starting at 1 second) on each 429 response, for up to 4 attempts; on any
other non-success status it fails immediately with no retry; once the
4-attempt budget is exhausted it performs exactly one final unconditional
attempt whose outcome is propagated, so a persistently rate-limited payload
causes 5 requests in total. -/
theorem post_retry_policy {V : Type} (server : Nat → Nat × V) :
    ((∀ k, k < 4 → (server k).1 = 429) →
      post server 4 =
        { requests := 5, sleeps := [1, 2, 4, 8],
          outcome :=
            if isHttpError (server 4).1 then .error (server 4).1 else .ok (server 4).2 })
    ∧ (∀ j, j < 4 → (∀ k, k < j → (server k).1 = 429) →
        (server j).1 ≠ 429 → isHttpError (server j).1 = true →
        post server 4 =
          { requests := j + 1, sleeps := (List.range j).map (fun i => (2 : ℚ) ^ i),
            outcome := .error (server j).1 })
    ∧ (∀ j, j < 4 → (∀ k, k < j → (server k).1 = 429) →
        isHttpError (server j).1 = false →
        post server 4 =
          { requests := j + 1, sleeps := (List.range j).map (fun i => (2 : ℚ) ^ i),
            outcome := .ok (server j).2 }) := by
  refine ⟨?_, ?_, ?_⟩
  · intro h
    have h0 := h 0 (by norm_num)
    have h1 := h 1 (by norm_num)
    have h2 := h 2 (by norm_num)
    have h3 := h 3 (by norm_num)
    simp [post, postAux, h0, h1, h2, h3]
    norm_num
  · intro j hj hpre hne herr
    interval_cases j
    · simp [post, postAux, hne, herr]
    · have h0 := hpre 0 (by norm_num)
      simp [post, postAux, h0, hne, herr, List.range_succ]
    · have h0 := hpre 0 (by norm_num)
      have h1 := hpre 1 (by norm_num)
      simp [post, postAux, h0, h1, hne, herr, List.range_succ]
    · have h0 := hpre 0 (by norm_num)
      have h1 := hpre 1 (by norm_num)
      have h2 := hpre 2 (by norm_num)
      simp [post, postAux, h0, h1, h2, hne, herr, List.range_succ]
      norm_num
  · intro j hj hpre hok
    have hne : (server j).1 ≠ 429 := by
      intro hc
      rw [hc] at hok
      simp [isHttpError] at hok
    interval_cases j
    · simp [post, postAux, hne, hok]
    · have h0 := hpre 0 (by norm_num)
      simp [post, postAux, h0, hne, hok, List.range_succ]
    · have h0 := hpre 0 (by norm_num)
      have h1 := hpre 1 (by norm_num)
      simp [post, postAux, h0, h1, hne, hok, List.range_succ]
    · have h0 := hpre 0 (by norm_num)
      have h1 := hpre 1 (by norm_num)
      have h2 := hpre 2 (by norm_num)
      simp [post, postAux, h0, h1, h2, hne, hok, List.range_succ]
      norm_num

/-- Witness for C1: a server that is rate-limited on every attempt causes
exactly 5 requests, sleeps of 1, 2, 4 and 8 seconds, and a propagated 429
failure from the final unconditional attempt. -/
theorem post_retry_policy_witness :
    post (fun _ => ((429 : Nat), (0 : Nat))) 4 =
      { requests := 5, sleeps := [1, 2, 4, 8], outcome := .error 429 } := by
  have h := (post_retry_policy (fun _ => ((429 : Nat), (0 : Nat)))).1
    (fun k _ => rfl)
  simpa [isHttpError] using h

/-! ### Python value model -/

/-- A JSON field value as it may feed Python `float(...)`: a number, a
string (parsed by an abstract oracle), or JSON `null` (Python `None`, for
which `float` raises `TypeError`). -/
inductive PyNumVal where
  | num (q : ℚ)
  | str (s : String)
  | null
deriving DecidableEq

/-- Python truthiness of such a value (`None`, `0` and `""` are falsy). -/
def pyTruthy : PyNumVal → Bool
  | .num q => q != 0
  | .str s => s != ""
  | .null => false

/-- `float(v)` under the string-parsing oracle `pf`: `none` when Python
raises (`TypeError` for `None`, `ValueError` for an unparsable string). -/
def parseVal (pf : String → Option ℚ) : PyNumVal → Option ℚ
  | .num q => some q
  | .str s => pf s
  | .null => none

/-- `_to_float` (api.py lines 225-231): `None` stays absent and unparsable
values degrade to absent instead of raising. -/
def toFloatOpt (pf : String → Option ℚ) (v : Option PyNumVal) : Option ℚ :=
  v.bind (parseVal pf)

/-- `float(v or 0)` as used at api.py lines 167-175: an absent or falsy
value gives `0.0`, and an unparsable value raises, is caught, and gives
`0.0`. -/
def coerceFloat (pf : String → Option ℚ) (v : Option PyNumVal) : ℚ :=
  match v with
  | none => 0
  | some x => if pyTruthy x then (parseVal pf x).getD 0 else 0

/-- A Python `datetime`: its wall-clock fields collapsed to epoch
milliseconds (reading them as UTC), plus the timezone offset in minutes
(`none` for a naive datetime).  The instant denoted by an aware value is
`naiveEpochMs - 60000 * offset`. -/
structure PyDateTime where
  naiveEpochMs : Int
  tzOffsetMin : Option Int
deriving DecidableEq

/-- The instant (epoch milliseconds) denoted by a datetime, reading naive
values as UTC. -/
def PyDateTime.instantMs (d : PyDateTime) : Int :=
  d.naiveEpochMs - 60000 * d.tzOffsetMin.getD 0

/-- `datetime.fromtimestamp(t / 1000, tz=timezone.utc)` for a millisecond
epoch `t` (api.py line 84). -/
def fromTimestampUtc (t : Int) : PyDateTime := ⟨t, some 0⟩

/-- `.replace(tzinfo=timezone.utc)` (api.py line 90): keep the wall-clock
fields and force the timezone to UTC. -/
def forceUtc (d : PyDateTime) : PyDateTime := { d with tzOffsetMin := some 0 }

/-- One candle of a `candleSnapshot` response; `t` is its open time in
epoch milliseconds. -/
structure Candle where
  t : Int
deriving DecidableEq

/-! ### Market fetch: `get_dex_markets` (api.py lines 39-63) -/

/-- One entry of the `universe` array of a `metaAndAssetCtxs` response. -/
structure Meta where
  name : String
  isDelisted : Bool
  maxLeverage : Option PyNumVal
  growthMode : Option PyNumVal
  lastGrowthModeChangeTime : Option String
deriving DecidableEq

/-- One pricing-context entry of a `metaAndAssetCtxs` response. -/
structure Ctx where
  funding : Option PyNumVal
  openInterest : Option PyNumVal
  prevDayPx : Option PyNumVal
  dayNtlVlm : Option PyNumVal
  markPx : Option PyNumVal
  oraclePx : Option PyNumVal
deriving DecidableEq

/-- The `ctx = {}` default of api.py line 48: every `.get` yields `None`. -/
def emptyCtx : Ctx := ⟨none, none, none, none, none, none⟩

/-- One market snapshot as built by `get_dex_markets` (lines 51-62). -/
structure Market where
  asset : String
  max_leverage : Option PyNumVal
  growth_mode : Option PyNumVal
  last_growth_mode_change_time : Option String
  funding : Option PyNumVal
  open_interest : Option PyNumVal
  prev_day_px : Option PyNumVal
  day_ntl_vlm : Option PyNumVal
  mark_px : Option PyNumVal
  oracle_px : Option PyNumVal
deriving DecidableEq

/-- The dictionary appended at api.py lines 51-62. -/
def mkMarket (m : Meta) (c : Ctx) : Market :=
  { asset := m.name
    max_leverage := m.maxLeverage
    growth_mode := m.growthMode
    last_growth_mode_change_time := m.lastGrowthModeChangeTime
    funding := c.funding
    open_interest := c.openInterest
    prev_day_px := c.prevDayPx
    day_ntl_vlm := c.dayNtlVlm
    mark_px := c.markPx
    oracle_px := c.oraclePx }

/-- `get_dex_markets` (lines 45-63), with the `universe` and asset-context
arrays already extracted from the response (lines 42-43): Python `zip`
stops at the shorter array, a `None` context becomes `{}`, and delisted
entries are skipped. -/
def getDexMarkets (univ : List Meta) (assetCtxs : List (Option Ctx)) : List Market :=
  (univ.zip assetCtxs).filterMap fun p =>
    if p.1.isDelisted then none else some (mkMarket p.1 (p.2.getD emptyCtx))

/-- C6 (amended): in `get_dex_markets` the metadata and pricing-context
arrays are joined by position; for every index present in both arrays whose
context entry is null, a snapshot with an all-absent context is built, and
delisted assets never appear; but metadata indices beyond the length of the
context array are dropped by the `zip`, so the output never exceeds the
shorter array. -/
theorem dex_markets_zip_spec (univ : List Meta) (assetCtxs : List (Option Ctx)) :
    (∀ m oc, (m, oc) ∈ univ.zip assetCtxs → m.isDelisted = false →
      mkMarket m (oc.getD emptyCtx) ∈ getDexMarkets univ assetCtxs)
    ∧ (∀ mk ∈ getDexMarkets univ assetCtxs, ∃ m oc,
        (m, oc) ∈ univ.zip assetCtxs ∧ m.isDelisted = false ∧
        mk = mkMarket m (oc.getD emptyCtx))
    ∧ (getDexMarkets univ assetCtxs).length ≤ min univ.length assetCtxs.length := by
  refine ⟨?_, ?_, ?_⟩
  · intro m oc hmem hnd
    unfold getDexMarkets
    refine List.mem_filterMap.2 ⟨(m, oc), hmem, ?_⟩
    simp [hnd]
  · intro mk hmk
    obtain ⟨⟨m, oc⟩, hmem, hf⟩ := List.mem_filterMap.1 hmk
    by_cases hd : m.isDelisted
    · simp [hd] at hf
    · simp only [Bool.not_eq_true] at hd
      refine ⟨m, oc, hmem, hd, ?_⟩
      simp [hd] at hf
      exact hf.symm
  · calc (getDexMarkets univ assetCtxs).length
        ≤ (univ.zip assetCtxs).length := List.length_filterMap_le _ _
      _ = min univ.length assetCtxs.length := List.length_zip ..

/-- A concrete non-delisted metadata entry used to exercise C6. -/
def cexMeta : Meta :=
  { name := "COIN", isDelisted := false, maxLeverage := none,
    growthMode := none, lastGrowthModeChangeTime := none }

/-- Counterexample to C6 as stated: with one metadata entry (not delisted)
and an empty pricing-context array, index 0 of the metadata array has no
pricing context, yet `get_dex_markets` drops the entry entirely (the
Python `zip` truncates) instead of building an all-absent snapshot. -/
theorem dex_markets_zip_truncates_cex :
    getDexMarkets [cexMeta] [] = [] ∧ cexMeta.isDelisted = false :=
  ⟨rfl, rfl⟩

/-- Witness for C6 (amended): a null context entry at an index present in
both arrays yields a snapshot built from the all-absent context. -/
theorem dex_markets_zip_spec_witness :
    mkMarket cexMeta emptyCtx ∈ getDexMarkets [cexMeta] [none] :=
  (dex_markets_zip_spec [cexMeta] [none]).1 cexMeta none (by simp) rfl

/-! ### Listing-date resolution: `_fetch_listing_date` (api.py lines 66-94) -/

/-- The fallback branch of `_fetch_listing_date` (lines 88-92): a supplied,
non-empty (Python-truthy) fallback string is truncated to its first 26
characters, parsed by `datetime.fromisoformat` (the abstract oracle `iso`,
`none` when parsing raises), and forced to UTC; failures give `None`. -/
def listingFallback (iso : String → Option PyDateTime) :
    Option String → Option PyDateTime
  | some f => if f = "" then none else (iso (f.take 26)).map forceUtc
  | none => none

/-- `_fetch_listing_date` (lines 66-94): `candleResp` is the outcome of the
`candleSnapshot` request (`none` when `_post` raised; the exception is
caught at lines 85-86); a non-empty candle list resolves to the first
candle's open time as a UTC instant; otherwise the fallback string is
tried; otherwise the result is `None`. -/
def fetchListingDate (candleResp : Option (List Candle))
    (fallbackIso : Option String) (iso : String → Option PyDateTime) :
    Option PyDateTime :=
  match candleResp with
  | some (c :: _) => some (fromTimestampUtc c.t)
  | some [] => listingFallback iso fallbackIso
  | none => listingFallback iso fallbackIso

/-- `(now - listing_dt).days if listing_dt else None` (api.py line 212):
whole-day difference of the two instants, floored toward minus infinity as
`timedelta.days` does. -/
def marketAgeDays (nowMs : Int) (d : Option PyDateTime) : Option Int :=
  d.map fun dt => (nowMs - dt.instantMs).fdiv 86400000

/-- C3: listing-date resolution for an uncached asset.  A response with at
least one candle resolves to the first candle's `t` as a millisecond UTC
epoch instant (e.g. `[{"t": 1700000000000}]` resolves to exactly that
instant); if the request raised or returned no candles and a (non-empty)
fallback ISO string was supplied, the fallback truncated to 26 characters
is parsed and forced to UTC; if both fail the result is absent and
`market_age_days` is absent. -/
theorem fetch_listing_date_resolution (iso : String → Option PyDateTime)
    (fb : String) (hfb : fb ≠ "") (c : Candle) (cs : List Candle)
    (ofb : Option String) (nowMs : Int) :
    fetchListingDate (some (c :: cs)) ofb iso = some (fromTimestampUtc c.t)
    ∧ (fromTimestampUtc c.t).instantMs = c.t
    ∧ fetchListingDate (some []) (some fb) iso = (iso (fb.take 26)).map forceUtc
    ∧ fetchListingDate none (some fb) iso = (iso (fb.take 26)).map forceUtc
    ∧ fetchListingDate (some []) none iso = none
    ∧ fetchListingDate none none iso = none
    ∧ (iso (fb.take 26) = none → fetchListingDate none (some fb) iso = none)
    ∧ marketAgeDays nowMs none = none := by
  refine ⟨rfl, by simp [fromTimestampUtc, PyDateTime.instantMs], ?_, ?_, rfl, rfl, ?_, rfl⟩
  · simp [fetchListingDate, listingFallback, hfb]
  · simp [fetchListingDate, listingFallback, hfb]
  · intro hiso
    simp [fetchListingDate, listingFallback, hfb, hiso]

/-- Witness for C3: the candle response `[{"t": 1700000000000}]` resolves
to exactly that millisecond instant in UTC, an error response with the
fallback `"2024-01-02T03:04:05"` uses the (truncated, UTC-forced) parsed
fallback, and with neither the result and the market age are absent. -/
theorem fetch_listing_date_resolution_witness :
    fetchListingDate (some [⟨1700000000000⟩]) (some "2024-01-02T03:04:05")
        (fun _ => some ⟨1704164645000, none⟩)
      = some (fromTimestampUtc 1700000000000)
    ∧ (fromTimestampUtc 1700000000000).instantMs = 1700000000000
    ∧ fetchListingDate none (some "2024-01-02T03:04:05")
        (fun _ => some ⟨1704164645000, none⟩)
      = some ⟨1704164645000, some 0⟩
    ∧ fetchListingDate none none (fun _ => some ⟨1704164645000, none⟩) = none
    ∧ marketAgeDays 1704164645000 none = none := by
  have h := fetch_listing_date_resolution (fun _ => some ⟨1704164645000, none⟩)
    "2024-01-02T03:04:05" (by decide) ⟨1700000000000⟩ []
    (some "2024-01-02T03:04:05") 1704164645000
  exact ⟨h.1, h.2.1, by simpa [forceUtc] using h.2.2.2.1, h.2.2.2.2.2.1, h.2.2.2.2.2.2.2⟩

/-! ### Listing-date cache: `_get_listing_dates` (api.py lines 97-123) -/

/-- A Python dictionary keyed by asset id, modelled as a function: `none`
means the key is absent. -/
def Dct (α : Type) : Type := String → Option α

/-- The empty dictionary. -/
def dctEmpty {α : Type} : Dct α := fun _ => none

/-- `d[k] = v`. -/
def dctInsert {α : Type} (d : Dct α) (k : String) (v : α) : Dct α :=
  fun x => if x = k then some v else d x

/-- The first loop of `_get_listing_dates` (lines 102-106): split the input
pairs into cached results and the `to_fetch` list, reading only the cache
as it was when the call started (no cache write happens before line 120).
Returns the `results` entries written from the cache and `to_fetch` in
input order. -/
def classifyPairs (cache : Dct (Option PyDateTime)) :
    List (String × Option String) →
    Dct (Option PyDateTime) × List (String × Option String)
  | [] => (dctEmpty, [])
  | (a, f) :: rest =>
    let (res, tf) := classifyPairs cache rest
    match cache a with
    | some v => (dctInsert res a v, tf)
    | none => (res, (a, f) :: tf)

/-- The fetch loop of `_get_listing_dates` (lines 108-121): one resolution
per `to_fetch` entry (one `executor.submit` per pair, duplicates included);
each completed future writes its result into both the cache and the result
dictionary.  Completion order is modelled as list order. -/
def runFetchLoop (fetch : String → Option String → Option PyDateTime) :
    List (String × Option String) →
    Dct (Option PyDateTime) × Dct (Option PyDateTime) →
    Dct (Option PyDateTime) × Dct (Option PyDateTime)
  | [], st => st
  | (a, f) :: rest, (res, ca) =>
    let dt := fetch a f
    runFetchLoop fetch rest (dctInsert res a dt, dctInsert ca a dt)

/-- Result of one `_get_listing_dates` call: the returned dictionary, the
cache after the call, and the assets submitted to the network. -/
structure BatchOut where
  results : Dct (Option PyDateTime)
  cache : Dct (Option PyDateTime)
  fetched : List String

/-- `_get_listing_dates` (lines 97-123) with the cache passed explicitly
and the per-asset resolution abstracted into `fetch`. -/
def getListingDates (fetch : String → Option String → Option PyDateTime)
    (cache : Dct (Option PyDateTime)) (pairs : List (String × Option String)) :
    BatchOut :=
  let cls := classifyPairs cache pairs
  let st := runFetchLoop fetch cls.2 (cls.1, cache)
  { results := st.1, cache := st.2, fetched := cls.2.map Prod.fst }

/-- Every `to_fetch` entry comes from the input and was uncached. -/
theorem classifyPairs_toFetch (cache : Dct (Option PyDateTime))
    (pairs : List (String × Option String)) :
    ∀ p ∈ (classifyPairs cache pairs).2, p ∈ pairs ∧ cache p.1 = none := by
  induction pairs with
  | nil => intro p hp; simp [classifyPairs] at hp
  | cons hd tl ih =>
    intro p hp
    obtain ⟨a, f⟩ := hd
    simp only [classifyPairs] at hp
    rcases hc : cache a with _ | v <;> rw [hc] at hp
    · simp only [List.mem_cons] at hp
      rcases hp with rfl | hp
      · exact ⟨List.mem_cons_self .., hc⟩
      · exact ⟨List.mem_cons_of_mem _ (ih p hp).1, (ih p hp).2⟩
    · exact ⟨List.mem_cons_of_mem _ (ih p hp).1, (ih p hp).2⟩

/-- A cached input pair gets its cached value written into `results`, and
an uncached input pair is placed in `to_fetch`. -/
theorem classifyPairs_covers (cache : Dct (Option PyDateTime))
    (pairs : List (String × Option String)) :
    ∀ p ∈ pairs,
      (∀ v, cache p.1 = some v → (classifyPairs cache pairs).1 p.1 = some v)
      ∧ (cache p.1 = none → p ∈ (classifyPairs cache pairs).2) := by
  induction pairs with
  | nil => intro p hp; simp at hp
  | cons hd tl ih =>
    intro p hp
    obtain ⟨a, f⟩ := hd
    simp only [List.mem_cons] at hp
    constructor
    · intro v hv
      simp only [classifyPairs]
      rcases hc : cache a with _ | w
      · rcases hp with rfl | hp
        · rw [hv] at hc; cases hc
        · exact (ih p hp).1 v hv
      · by_cases hpa : p.1 = a
        · rw [hpa] at hv; rw [hv] at hc
          cases hc
          simp [dctInsert, hpa]
        · simp only [dctInsert, hpa, if_neg]
          rcases hp with rfl | hp
          · exact absurd rfl hpa
          · exact (ih p hp).1 v hv
    · intro hn
      simp only [classifyPairs]
      rcases hc : cache a with _ | w
      · rcases hp with rfl | hp
        · exact List.mem_cons_self ..
        · exact List.mem_cons_of_mem _ ((ih p hp).2 hn)
      · rcases hp with rfl | hp
        · rw [hn] at hc; cases hc
        · exact (ih p hp).2 hn

/-- The fetch loop leaves dictionary entries of assets it never fetches
untouched. -/
theorem runFetchLoop_not_mem (fetch : String → Option String → Option PyDateTime)
    (tf : List (String × Option String)) (res ca : Dct (Option PyDateTime))
    (a : String) (h : a ∉ tf.map Prod.fst) :
    (runFetchLoop fetch tf (res, ca)).1 a = res a
    ∧ (runFetchLoop fetch tf (res, ca)).2 a = ca a := by
  induction tf generalizing res ca with
  | nil => exact ⟨rfl, rfl⟩
  | cons hd tl ih =>
    obtain ⟨b, f⟩ := hd
    simp only [List.map_cons, List.mem_cons, not_or] at h
    have step := ih (dctInsert res b (fetch b f)) (dctInsert ca b (fetch b f)) h.2
    simp only [runFetchLoop]
    refine ⟨step.1.trans ?_, step.2.trans ?_⟩ <;> simp [dctInsert, h.1]

/-- Every asset the fetch loop processes ends with the same freshly written
entry in both the result dictionary and the cache. -/
theorem runFetchLoop_mem (fetch : String → Option String → Option PyDateTime)
    (tf : List (String × Option String)) (res ca : Dct (Option PyDateTime))
    (a : String) (h : a ∈ tf.map Prod.fst) :
    ∃ w, (runFetchLoop fetch tf (res, ca)).1 a = some w
    ∧ (runFetchLoop fetch tf (res, ca)).2 a = some w := by
  induction tf generalizing res ca with
  | nil => simp at h
  | cons hd tl ih =>
    obtain ⟨b, f⟩ := hd
    simp only [runFetchLoop]
    by_cases htl : a ∈ tl.map Prod.fst
    · exact ih _ _ htl
    · simp only [List.map_cons, List.mem_cons] at h
      rcases h with rfl | h
      · have step := runFetchLoop_not_mem fetch tl
          (dctInsert res a (fetch a f)) (dctInsert ca a (fetch a f)) a htl
        exact ⟨fetch a f, by simp [step.1, dctInsert], by simp [step.2, dctInsert]⟩
      · exact absurd h htl

/-- An asset cached before the call is never put in `to_fetch`. -/
theorem cached_not_in_toFetch (cache : Dct (Option PyDateTime))
    (pairs : List (String × Option String)) (a : String) (v : Option PyDateTime)
    (hv : cache a = some v) : a ∉ (classifyPairs cache pairs).2.map Prod.fst := by
  intro hmem
  obtain ⟨p, hp, hpa⟩ := List.mem_map.1 hmem
  have := (classifyPairs_toFetch cache pairs p hp).2
  rw [hpa, hv] at this
  cases this

/-- C2: once an asset's listing-date cache entry is populated (including as
the unresolved marker `None`), a `_get_listing_dates` call returns the
cached value for it, issues no network request for it, and leaves its cache
entry unchanged. -/
theorem listing_cache_hit_no_refetch
    (fetch : String → Option String → Option PyDateTime)
    (cache : Dct (Option PyDateTime)) (pairs : List (String × Option String))
    (a : String) (v : Option PyDateTime) (hv : cache a = some v) :
    a ∉ (getListingDates fetch cache pairs).fetched
    ∧ (getListingDates fetch cache pairs).cache a = some v
    ∧ (∀ f, (a, f) ∈ pairs → (getListingDates fetch cache pairs).results a = some v) := by
  have hnf := cached_not_in_toFetch cache pairs a v hv
  have hpres := runFetchLoop_not_mem fetch (classifyPairs cache pairs).2
    (classifyPairs cache pairs).1 cache a hnf
  refine ⟨hnf, ?_, ?_⟩
  · exact hpres.2.trans hv
  · intro f hf
    have := (classifyPairs_covers cache pairs (a, f) hf).1 v hv
    exact hpres.1.trans this

/-- Witness for C2: with `"BTC"` already cached, a repeated lookup returns
the cached timestamp, fetches nothing, and leaves the entry intact. -/
theorem listing_cache_hit_no_refetch_witness :
    "BTC" ∉ (getListingDates (fun _ _ => none)
        (dctInsert dctEmpty "BTC" (some ⟨1700000000000, some 0⟩))
        [("BTC", none)]).fetched
    ∧ (getListingDates (fun _ _ => none)
        (dctInsert dctEmpty "BTC" (some ⟨1700000000000, some 0⟩))
        [("BTC", none)]).cache "BTC" = some (some ⟨1700000000000, some 0⟩)
    ∧ (∀ f, ("BTC", f) ∈ [(("BTC" : String), (none : Option String))] →
        (getListingDates (fun _ _ => none)
          (dctInsert dctEmpty "BTC" (some ⟨1700000000000, some 0⟩))
          [("BTC", none)]).results "BTC" = some (some ⟨1700000000000, some 0⟩)) :=
  listing_cache_hit_no_refetch (fun _ _ => none)
    (dctInsert dctEmpty "BTC" (some ⟨1700000000000, some 0⟩))
    [("BTC", none)] "BTC" (some ⟨1700000000000, some 0⟩) (by simp [dctInsert])

/-- C10: a `_get_listing_dates` call returns a dictionary with an entry for
every asset of the input (cached assets carrying their cached value), and
afterwards every input asset is present as a key of the persistent cache. -/
theorem listing_batch_covers_inputs
    (fetch : String → Option String → Option PyDateTime)
    (cache : Dct (Option PyDateTime)) (pairs : List (String × Option String)) :
    ∀ p ∈ pairs,
      (∃ w, (getListingDates fetch cache pairs).results p.1 = some w)
      ∧ (∃ w, (getListingDates fetch cache pairs).cache p.1 = some w)
      ∧ (∀ v, cache p.1 = some v →
          (getListingDates fetch cache pairs).results p.1 = some v) := by
  intro p hp
  obtain ⟨a, f⟩ := p
  rcases hc : cache a with _ | v
  · have htf := (classifyPairs_covers cache pairs (a, f) hp).2 hc
    have hmem : a ∈ (classifyPairs cache pairs).2.map Prod.fst :=
      List.mem_map.2 ⟨(a, f), htf, rfl⟩
    obtain ⟨w, hw1, hw2⟩ := runFetchLoop_mem fetch (classifyPairs cache pairs).2
      (classifyPairs cache pairs).1 cache a hmem
    refine ⟨⟨w, hw1⟩, ⟨w, hw2⟩, fun v hv => Option.noConfusion hv⟩
  · have h2 := listing_cache_hit_no_refetch fetch cache pairs a v hc
    refine ⟨⟨v, h2.2.2 f hp⟩, ⟨v, h2.2.1⟩, fun w hw => ?_⟩
    injection hw with hw2
    rw [← hw2]
    exact h2.2.2 f hp

/-- Witness for C10: a one-element batch with an empty cache returns an
entry for the asset and leaves it cached. -/
theorem listing_batch_covers_inputs_witness :
    (∃ w, (getListingDates (fun _ _ => some ⟨5, some 0⟩) dctEmpty
        [("AAA", none)]).results "AAA" = some w)
    ∧ (∃ w, (getListingDates (fun _ _ => some ⟨5, some 0⟩) dctEmpty
        [("AAA", none)]).cache "AAA" = some w)
    ∧ (∀ v, dctEmpty "AAA" = some v →
        (getListingDates (fun _ _ => some ⟨5, some 0⟩) dctEmpty
          [("AAA", none)]).results "AAA" = some v) :=
  listing_batch_covers_inputs (fun _ _ => some ⟨5, some 0⟩) dctEmpty
    [("AAA", none)] ("AAA", none) (by simp)

/-! ### Ticker extraction (api.py line 164) -/

/-- Python `asset.split(":")` on the character list of the asset id: split
at every colon, keeping empty segments. -/
def splitCols : List Char → List (List Char)
  | [] => [[]]
  | c :: cs =>
    if c = ':' then [] :: splitCols cs
    else (c :: (splitCols cs).headD []) :: (splitCols cs).tail

/-- `asset.split(":")[-1] if ":" in asset else asset` (line 164). -/
def tickerOf (s : String) : String :=
  if s.toList.contains ':' then String.mk ((splitCols s.toList).getLastD [])
  else s

/-- The claim-side reading: the substring after the last colon, taken from
the end of the string while no colon is seen. -/
def afterLastColon (s : String) : String :=
  String.mk ((s.toList.reverse.takeWhile (fun c => c != ':')).reverse)

theorem splitCols_ne_nil (l : List Char) : splitCols l ≠ [] := by
  cases l with
  | nil => simp [splitCols]
  | cons c cs =>
    simp only [splitCols]
    split <;> simp

theorem splitCols_no_colon (l : List Char) (h : ':' ∉ l) : splitCols l = [l] := by
  induction l with
  | nil => rfl
  | cons c cs ih =>
    simp only [List.mem_cons, not_or] at h
    rw [splitCols, if_neg (fun hc => h.1 hc.symm), ih h.2]
    rfl

theorem splitCols_two_le (l : List Char) (h : ':' ∈ l) :
    2 ≤ (splitCols l).length := by
  induction l with
  | nil => simp at h
  | cons c cs ih =>
    by_cases hc : c = ':'
    · rw [splitCols, if_pos hc]
      have := splitCols_ne_nil cs
      have : 1 ≤ (splitCols cs).length := List.length_pos.2 this
      simp only [List.length_cons]
      omega
    · rw [splitCols, if_neg hc]
      have hmem : ':' ∈ cs := by
        rcases List.mem_cons.1 h with hh | hh
        · exact absurd hh.symm hc
        · exact hh
      have h2 := ih hmem
      rcases hsc : splitCols cs with _ | ⟨w, ws⟩
      · exact absurd hsc (splitCols_ne_nil cs)
      · rw [hsc] at h2
        simp only [List.length_cons] at h2 ⊢
        simp only [hsc, List.tail_cons, List.length_cons]
        omega

theorem takeWhile_all_pos {α : Type} (p : α → Bool) (l : List α)
    (h : ∀ x ∈ l, p x = true) : l.takeWhile p = l := by
  induction l with
  | nil => rfl
  | cons x t ih =>
    rw [List.takeWhile_cons, if_pos (h x (List.mem_cons_self ..))]
    rw [ih fun y hy => h y (List.mem_cons_of_mem _ hy)]

theorem takeWhile_append_last_neg {α : Type} (p : α → Bool) (xs : List α)
    (y : α) (hy : p y = false) : (xs ++ [y]).takeWhile p = xs.takeWhile p := by
  induction xs with
  | nil => simp [List.takeWhile_cons, hy]
  | cons x t ih =>
    rcases hx : p x with _ | _ <;>
      simp [List.takeWhile_cons, hx, ih]

theorem takeWhile_append_of_neg_mem {α : Type} (p : α → Bool) (xs ys : List α)
    (h : ∃ x ∈ xs, p x = false) : (xs ++ ys).takeWhile p = xs.takeWhile p := by
  induction xs with
  | nil => simp at h
  | cons x t ih =>
    rcases hx : p x with _ | _
    · simp [List.takeWhile_cons, hx]
    · obtain ⟨z, hz, hpz⟩ := h
      rcases List.mem_cons.1 hz with rfl | hz
      · rw [hx] at hpz; cases hpz
      · simp [List.takeWhile_cons, hx, ih ⟨z, hz, hpz⟩]

theorem splitCols_getLastD (l : List Char) :
    ∀ d : List Char,
      (splitCols l).getLastD d = (l.reverse.takeWhile (fun c => c != ':')).reverse := by
  induction l with
  | nil => intro d; rfl
  | cons c cs ih =>
    intro d
    by_cases hc : c = ':'
    · subst hc
      rw [splitCols, if_pos rfl, List.getLastD_cons, ih]
      rw [List.reverse_cons, takeWhile_append_last_neg _ _ _ (by simp)]
    · rw [splitCols, if_neg hc]
      by_cases hcol : ':' ∈ cs
      · rcases hsc : splitCols cs with _ | ⟨w, ws⟩
        · exact absurd hsc (splitCols_ne_nil cs)
        · have h2 := splitCols_two_le cs hcol
          rw [hsc] at h2
          have hws : ws ≠ [] := by
            intro hmt
            rw [hmt] at h2
            simp at h2
          rcases ws with _ | ⟨w2, ws2⟩
          · exact absurd rfl hws
          · simp only [List.headD_cons, List.tail_cons, List.getLastD_cons]
            have ihcs := ih d
            rw [hsc] at ihcs
            simp only [List.getLastD_cons] at ihcs
            rw [ihcs, List.reverse_cons,
              takeWhile_append_of_neg_mem _ _ _
                ⟨':', by simp [hcol], by simp⟩]
      · rw [splitCols_no_colon cs hcol]
        simp only [List.headD_cons, List.tail_cons, List.getLastD_cons,
          List.getLastD_nil]
        have hnone : ':' ∉ c :: cs := by
          intro hmem
          rcases List.mem_cons.1 hmem with hh | hh
          · exact hc hh.symm
          · exact hcol hh
        rw [takeWhile_all_pos _ _ (fun x hx => by
          simp only [bne_iff_ne, ne_eq, decide_eq_true_eq]
          intro hxe
          exact hnone (hxe ▸ List.mem_reverse.1 hx))]
        simp

/-- The code's ticker computation agrees with "substring after the last
colon when a colon is present, the whole asset id otherwise". -/
theorem tickerOf_spec (s : String) :
    (s.toList.contains ':' = true → tickerOf s = afterLastColon s)
    ∧ (s.toList.contains ':' = false → tickerOf s = s) := by
  constructor
  · intro h
    rw [tickerOf, if_pos h, afterLastColon, splitCols_getLastD]
  · intro h
    rw [tickerOf, if_neg (by rw [h]; simp)]

/-! ### Market aggregation: `get_all_markets` (api.py lines 126-222) -/

/-- One entry of a sub-exchange's `assetToStreamingOiCap` list: JSON null
or a too-short pair (both skipped at lines 139-140), or an (asset, cap)
pair whose cap value still has to be parsed (lines 141-144). -/
inductive CapPair where
  | null
  | short
  | pair (asset : String) (cap : PyNumVal)
deriving DecidableEq

/-- A non-null HIP-3 DEX dictionary as consumed by `get_all_markets`:
`name`, `fullName`, `deployer` (lines 133-136) and the
`assetToStreamingOiCap` list, where `none` stands for a missing or null
field (the `... or []` of line 138). -/
structure Dex where
  name : String
  fullName : Option String
  deployer : String
  assetToStreamingOiCap : Option (List CapPair)
deriving DecidableEq

/-- One iteration of the cap loop (api.py lines 138-144): null and short
pairs are skipped, an unparsable cap value raises, is caught, and is
skipped. -/
def capStep (pf : String → Option ℚ) (acc : Dct ℚ) : CapPair → Dct ℚ
  | .null => acc
  | .short => acc
  | .pair a c =>
    match parseVal pf c with
    | some q => dctInsert acc a q
    | none => acc

/-- The cap accumulation of api.py lines 138-144 for one DEX. -/
def addDexCaps (pf : String → Option ℚ) (lk : Dct ℚ) (d : Dex) : Dct ℚ :=
  (d.assetToStreamingOiCap.getD []).foldl (capStep pf) lk

/-- The asset-to-cap lookup built by flattening every DEX's cap list
(lines 130-144). -/
def buildCapLookup (pf : String → Option ℚ) (dexes : List Dex) : Dct ℚ :=
  dexes.foldl (addDexCaps pf) dctEmpty

/-- The `dex_info` dictionary of lines 131-137: name to (full name,
deployer), the full name defaulting to the name. -/
def dexInfoLookup (dexes : List Dex) : Dct (String × String) :=
  dexes.foldl
    (fun m d => dctInsert m d.name (d.fullName.getD d.name, d.deployer)) dctEmpty

/-- A row as appended to `raw_rows` (api.py lines 183-199). -/
structure RawRow where
  dex : String
  dex_full_name : String
  deployer : String
  asset : String
  ticker : String
  mark_px : Option ℚ
  oracle_px : Option ℚ
  day_ntl_vlm : Option ℚ
  open_interest : ℚ
  oi_cap : Option ℚ
  oi_cap_pct : Option ℚ
  funding : Option ℚ
  max_leverage : Option PyNumVal
  growth_mode : Option PyNumVal
  fallbackIso : Option String
deriving DecidableEq

/-- The body of the per-market loop (api.py lines 162-199): ticker after
the last colon, open interest and mark price coerced with default 0, their
product as USD open interest, and the cap-utilization percentage only for
a known positive cap (`if oi_cap and oi_cap > 0`, line 180). -/
def mkRawRow (pf : String → Option ℚ) (lk : Dct ℚ) (dexName : String)
    (info : Option (String × String)) (m : Market) : RawRow :=
  let usd := coerceFloat pf m.open_interest * coerceFloat pf m.mark_px
  { dex := dexName
    dex_full_name := (info.map Prod.fst).getD dexName
    deployer := (info.map Prod.snd).getD ""
    asset := m.asset
    ticker := tickerOf m.asset
    mark_px := toFloatOpt pf m.mark_px
    oracle_px := toFloatOpt pf m.oracle_px
    day_ntl_vlm := toFloatOpt pf m.day_ntl_vlm
    open_interest := usd
    oi_cap := lk m.asset
    oi_cap_pct :=
      match lk m.asset with
      | some c => if 0 < c then some (usd / c * 100) else none
      | none => none
    funding := toFloatOpt pf m.funding
    max_leverage := m.max_leverage
    growth_mode := m.growth_mode
    fallbackIso := m.last_growth_mode_change_time }

/-- The inputs of one `get_all_markets()` invocation: the `perpDexs`
response (with null slots), the per-DEX `metaAndAssetCtxs` responses
(`none` for a task that raised), the `candleSnapshot` responses, the
`float`-on-string and `fromisoformat` oracles, the listing-date cache at
call time and `datetime.now` in epoch milliseconds. -/
structure Env where
  pf : String → Option ℚ
  rawDexes : List (Option Dex)
  fetchRaw : String → Option (List Meta × List (Option Ctx))
  candles : String → Option (List Candle)
  isoParse : String → Option PyDateTime
  cache0 : Dct (Option PyDateTime)
  nowMs : Int

/-- `get_dexes()` (api.py lines 33-36): null entries filtered out. -/
def dexesOf (e : Env) : List Dex := e.rawDexes.filterMap id

/-- The `raw_rows` list of lines 146-199; a DEX whose fetch raised
contributes nothing (lines 156-159).  Completion order of the futures is
modelled as submission order; the final sort makes the aggregate
insensitive to it except among equal-name DEXes. -/
def rawRowsOf (e : Env) : List RawRow :=
  (dexesOf e).flatMap fun d =>
    match e.fetchRaw d.name with
    | none => []
    | some (u, cs) =>
      (getDexMarkets u cs).map
        (mkRawRow e.pf (buildCapLookup e.pf (dexesOf e)) d.name
          (dexInfoLookup (dexesOf e) d.name))

/-- The `_get_listing_dates` call of line 206 on the (asset, fallback)
pairs of line 205. -/
def listingOf (e : Env) : BatchOut :=
  getListingDates (fun a f => fetchListingDate (e.candles a) f e.isoParse)
    e.cache0 ((rawRowsOf e).map fun r => (r.asset, r.fallbackIso))

/-- A finished aggregated row (lines 210-217): the raw row without the
fallback, plus listing date and market age. -/
structure Row where
  dex : String
  dex_full_name : String
  deployer : String
  asset : String
  ticker : String
  mark_px : Option ℚ
  oracle_px : Option ℚ
  day_ntl_vlm : Option ℚ
  open_interest : ℚ
  oi_cap : Option ℚ
  oi_cap_pct : Option ℚ
  funding : Option ℚ
  max_leverage : Option PyNumVal
  growth_mode : Option PyNumVal
  listing_date : Option PyDateTime
  market_age_days : Option Int
deriving DecidableEq

/-- Lines 210-217 for one row: `listing_dates.get(asset)` (absent key and
stored `None` both give `None`), and the whole-day age only for a resolved
date. -/
def finalizeRow (e : Env) (r : RawRow) : Row :=
  let dt := ((listingOf e).results r.asset).join
  { dex := r.dex, dex_full_name := r.dex_full_name, deployer := r.deployer,
    asset := r.asset, ticker := r.ticker, mark_px := r.mark_px,
    oracle_px := r.oracle_px, day_ntl_vlm := r.day_ntl_vlm,
    open_interest := r.open_interest, oi_cap := r.oi_cap,
    oi_cap_pct := r.oi_cap_pct, funding := r.funding,
    max_leverage := r.max_leverage, growth_mode := r.growth_mode,
    listing_date := dt, market_age_days := marketAgeDays e.nowMs dt }

/-- Descending order on the 24h-volume key with absent values (`NaN` in
the data frame) placed last, as `sort_values` with the default
`na_position="last"` orders the descending second key. -/
def volLEb : Option ℚ → Option ℚ → Bool
  | some x, some y => decide (y ≤ x)
  | some _, none => true
  | none, some _ => false
  | none, none => true

/-- Python string comparison (code-point lexicographic), as pandas applies
it to the `dex` column, on character lists. -/
def strLtb : List Char → List Char → Bool
  | [], [] => false
  | [], _ :: _ => true
  | _ :: _, [] => false
  | a :: as, b :: bs =>
    if a < b then true else if b < a then false else strLtb as bs

/-- The computable comparator agrees with lexicographic list order. -/
theorem strLtb_iff_lex (xs : List Char) :
    ∀ ys, strLtb xs ys = true ↔ List.Lex (· < ·) xs ys := by
  induction xs with
  | nil =>
    intro ys
    cases ys with
    | nil =>
      simp only [strLtb, Bool.false_eq_true, false_iff]
      exact List.Lex.not_nil_right _ _
    | cons b bs => simp only [strLtb, true_iff]; exact List.Lex.nil
  | cons a as ih =>
    intro ys
    cases ys with
    | nil =>
      simp only [strLtb, Bool.false_eq_true, false_iff]
      exact List.Lex.not_nil_right _ _
    | cons b bs =>
      by_cases hab : a < b
      · simp only [strLtb, if_pos hab, true_iff]
        exact List.Lex.rel hab
      · by_cases hba : b < a
        · simp only [strLtb, if_neg hab, if_pos hba, Bool.false_eq_true, false_iff]
          intro hlex
          cases hlex with
          | cons h => exact lt_irrefl a hba
          | rel h => exact hab h
        · have heq : a = b := le_antisymm (not_lt.1 hba) (not_lt.1 hab)
          subst heq
          simp only [strLtb, if_neg hab, if_neg hba]
          rw [List.Lex.cons_iff]
          exact ih bs

/-- The row order of `df.sort_values(["dex", "day_ntl_vlm"],
ascending=[True, False])` (line 220): DEX identifier ascending, then 24h
notional volume descending.  A multi-column pandas `sort_values` is a
stable lexicographic sort (`numpy.lexsort`). -/
def rowLE (a b : Row) : Prop :=
  (strLtb a.dex.toList b.dex.toList
    || (decide (a.dex = b.dex) && volLEb a.day_ntl_vlm b.day_ntl_vlm)) = true

instance : DecidableRel rowLE :=
  fun _ _ => inferInstanceAs (Decidable (_ = true))

/-- The comparator agrees with the string order. -/
theorem strLtb_iff_string_lt (x y : String) :
    strLtb x.toList y.toList = true ↔ x < y := by
  rw [strLtb_iff_lex, String.lt_iff_toList_lt]
  exact Iff.rfl

theorem volLEb_total (x y : Option ℚ) : volLEb x y = true ∨ volLEb y x = true := by
  cases x <;> cases y <;> simp [volLEb]
  exact le_total ..

theorem volLEb_trans (x y z : Option ℚ) (h1 : volLEb x y = true)
    (h2 : volLEb y z = true) : volLEb x z = true := by
  cases x <;> cases y <;> cases z <;> simp [volLEb] at h1 h2 ⊢
  exact le_trans h2 h1

theorem rowLE_total (a b : Row) : rowLE a b ∨ rowLE b a := by
  unfold rowLE
  simp only [Bool.or_eq_true, Bool.and_eq_true, decide_eq_true_eq]
  rcases lt_trichotomy a.dex b.dex with h | h | h
  · exact Or.inl (Or.inl ((strLtb_iff_string_lt ..).2 h))
  · rcases volLEb_total a.day_ntl_vlm b.day_ntl_vlm with hv | hv
    · exact Or.inl (Or.inr ⟨h, hv⟩)
    · exact Or.inr (Or.inr ⟨h.symm, hv⟩)
  · exact Or.inr (Or.inl ((strLtb_iff_string_lt ..).2 h))

theorem rowLE_trans (a b c : Row) (h1 : rowLE a b) (h2 : rowLE b c) :
    rowLE a c := by
  simp only [rowLE, Bool.or_eq_true, Bool.and_eq_true, decide_eq_true_eq,
    strLtb_iff_string_lt] at h1 h2 ⊢
  rcases h1 with h1 | ⟨h1e, h1v⟩
  · rcases h2 with h2 | ⟨h2e, _⟩
    · exact Or.inl (lt_trans h1 h2)
    · exact Or.inl (h2e ▸ h1)
  · rcases h2 with h2 | ⟨h2e, h2v⟩
    · exact Or.inl (h1e ▸ h2)
    · exact Or.inr ⟨h1e.trans h2e, volLEb_trans _ _ _ h1v h2v⟩

instance : IsTotal Row rowLE := ⟨rowLE_total⟩

instance : IsTrans Row rowLE := ⟨fun a b c => rowLE_trans a b c⟩

/-- `get_all_markets()` up to the sort.  With an empty sub-exchange list
the call raises: `ThreadPoolExecutor(max_workers=len(dexes))` (line 148)
rejects a zero worker count with `ValueError`.  The early return of lines
201-202 for empty `raw_rows` is observationally the map over the empty
list. -/
def getAllMarketsRows (e : Env) : Except Unit (List Row) :=
  if dexesOf e = [] then .error ()
  else .ok ((rawRowsOf e).map (finalizeRow e))

/-- `get_all_markets()` (api.py lines 126-222), ending with the stable
sort of line 220. -/
def getAllMarkets (e : Env) : Except Unit (List Row) :=
  (getAllMarketsRows e).map (List.insertionSort rowLE)

/-- Equality of modelled call outcomes is decidable (used to evaluate the
model on concrete inputs). -/
instance {e a : Type} [DecidableEq e] [DecidableEq a] : DecidableEq (Except e a) :=
  fun x y =>
    match x, y with
    | .ok v, .ok w =>
      if h : v = w then .isTrue (by rw [h])
      else .isFalse (by intro hc; cases hc; exact h rfl)
    | .error v, .error w =>
      if h : v = w then .isTrue (by rw [h])
      else .isFalse (by intro hc; cases hc; exact h rfl)
    | .ok _, .error _ => .isFalse (by intro hc; cases hc)
    | .error _, .ok _ => .isFalse (by intro hc; cases hc)

/-- Every row of `raw_rows` originates from a discovered DEX whose market
fetch succeeded, via the loop body of lines 162-199. -/
theorem mem_rawRowsOf (e : Env) (r : RawRow) (hr : r ∈ rawRowsOf e) :
    ∃ d ∈ dexesOf e, ∃ u cs, e.fetchRaw d.name = some (u, cs) ∧
      ∃ m ∈ getDexMarkets u cs,
        r = mkRawRow e.pf (buildCapLookup e.pf (dexesOf e)) d.name
          (dexInfoLookup (dexesOf e) d.name) m := by
  obtain ⟨d, hd, hmem⟩ := List.mem_flatMap.1 hr
  cases hfr : e.fetchRaw d.name with
  | none => rw [hfr] at hmem; simp at hmem
  | some uc =>
    obtain ⟨u, cs⟩ := uc
    rw [hfr] at hmem
    obtain ⟨m, hm, rfl⟩ := List.mem_map.1 hmem
    exact ⟨d, hd, u, cs, hfr, m, hm, rfl⟩

/-- Every pre-sort output row is a finalized raw row. -/
theorem mem_getAllMarketsRows (e : Env) (rows : List Row)
    (h : getAllMarketsRows e = .ok rows) (x : Row) (hx : x ∈ rows) :
    ∃ r ∈ rawRowsOf e, x = finalizeRow e r := by
  unfold getAllMarketsRows at h
  split at h
  · cases h
  · cases h
    obtain ⟨r, hr, rfl⟩ := List.mem_map.1 hx
    exact ⟨r, hr, rfl⟩

/-- The sorted output is the stable sort of the pre-sort rows and has the
same members. -/
theorem getAllMarkets_eq_sort (e : Env) (out : List Row)
    (h : getAllMarkets e = .ok out) :
    ∃ rows, getAllMarketsRows e = .ok rows
      ∧ out = List.insertionSort rowLE rows
      ∧ ∀ x, x ∈ out ↔ x ∈ rows := by
  unfold getAllMarkets at h
  cases hrows : getAllMarketsRows e with
  | error u => rw [hrows] at h; cases h
  | ok rows =>
    rw [hrows] at h
    simp only [Except.map] at h
    cases h
    exact ⟨rows, rfl, rfl, fun x => (List.perm_insertionSort rowLE rows).mem_iff⟩

/-- A discovered DEX with market fetch failing. -/
def dexA : Dex := ⟨"alpha", none, "", none⟩

/-- A second discovered DEX. -/
def dexB : Dex := ⟨"beta", none, "", none⟩

/-- Aggregation input whose discovery yields zero sub-exchanges (one null
slot, filtered out by `get_dexes`). -/
def envNoDex : Env :=
  { pf := fun _ => none, rawDexes := [none], fetchRaw := fun _ => none,
    candles := fun _ => none, isoParse := fun _ => none,
    cache0 := fun _ => none, nowMs := 0 }

/-- Aggregation input with two sub-exchanges whose market fetches both
raise. -/
def envAllFail : Env :=
  { pf := fun _ => none, rawDexes := [some dexA, some dexB],
    fetchRaw := fun _ => none, candles := fun _ => none,
    isoParse := fun _ => none, cache0 := fun _ => none, nowMs := 0 }

/-- Aggregation input where `alpha` succeeds with one market and `beta`
raises. -/
def envPartial : Env :=
  { pf := fun _ => none, rawDexes := [some dexA, some dexB],
    fetchRaw := fun n =>
      if n = "alpha" then some ([⟨"AST", false, none, none, none⟩], [none])
      else none,
    candles := fun _ => none, isoParse := fun _ => none,
    cache0 := fun _ => none, nowMs := 0 }

/-- The single aggregated row produced by `envPartial`. -/
def rowPartial : Row :=
  ⟨"alpha", "alpha", "", "AST", "AST", none, none, none, 0, none, none,
    none, none, none, none, none⟩

unseal Rat.mul Rat.inv in
/-- C4: with zero discovered sub-exchanges the code does NOT return an
empty table — `ThreadPoolExecutor(max_workers=len(dexes))` at line 148
raises `ValueError` for `max_workers = 0` — while the other two parts of
the claim hold: with every sub-exchange fetch failing the aggregation
returns an empty table, and a single failing sub-exchange contributes zero
rows without aborting the aggregation. -/
theorem aggregate_failure_semantics :
    getAllMarkets envNoDex = .error ()
    ∧ getAllMarkets envAllFail = .ok []
    ∧ getAllMarkets envPartial = .ok [rowPartial] := by
  refine ⟨by decide, by decide, by decide⟩

/-- Inserting `x` into `t` keeps any filter whose satisfying elements all
relate to `x`: `x` lands before every kept element it ties with. -/
theorem filter_orderedInsert {α : Type} (r : α → α → Prop) [DecidableRel r]
    (p : α → Bool) (x : α) (t : List α)
    (h : ∀ y, p x = true → p y = true → r x y) :
    (List.orderedInsert r x t).filter p
      = if p x then x :: t.filter p else t.filter p := by
  induction t with
  | nil =>
    cases hpx : p x <;> simp [List.orderedInsert, List.filter, hpx]
  | cons y ys ih =>
    by_cases hr : r x y
    · rw [List.orderedInsert, if_pos hr]
      cases hpx : p x <;> simp [List.filter_cons, hpx]
    · rw [List.orderedInsert, if_neg hr]
      cases hpx : p x
      · rw [List.filter_cons, List.filter_cons]
        cases hpy : p y <;> simp [hpy, ih, hpx]
      · have hpy : p y = false := by
          cases hpy2 : p y
          · rfl
          · exact absurd (h y hpx hpy2) hr
        simp [List.filter_cons, hpx, hpy, ih]

/-- Insertion sort is stable: it preserves the sublist of elements with any
fixed key, provided equal-key elements always relate. -/
theorem filter_insertionSort {α : Type} (r : α → α → Prop) [DecidableRel r]
    (p : α → Bool) (h : ∀ x y, p x = true → p y = true → r x y) (l : List α) :
    (List.insertionSort r l).filter p = l.filter p := by
  induction l with
  | nil => rfl
  | cons a l ih =>
    rw [List.insertionSort, filter_orderedInsert r p a _ (fun y hx hy => h a y hx hy)]
    cases hpa : p a <;> simp [List.filter_cons, hpa, ih]

/-- Rows with equal sort keys always relate under the row order. -/
theorem rowLE_of_key_eq (x y : Row) (hd : x.dex = y.dex)
    (hv : x.day_ntl_vlm = y.day_ntl_vlm) : rowLE x y := by
  have hvv : volLEb x.day_ntl_vlm y.day_ntl_vlm = true := by
    rw [hv]; cases y.day_ntl_vlm <;> simp [volLEb]
  simp [rowLE, hd, hvv]

/-- C5: the aggregation output is sorted by sub-exchange identifier
ascending, then 24h notional volume descending (absent volumes last)
within each sub-exchange, and the sort is stable: rows with equal
(sub-exchange, volume) keys keep their pre-sort relative order. -/
theorem aggregate_sort_spec (e : Env) (rows out : List Row)
    (hrows : getAllMarketsRows e = .ok rows)
    (hout : getAllMarkets e = .ok out) :
    (∀ (i j : Fin out.length), (i : ℕ) < (j : ℕ) →
      (out.get i).dex ≤ (out.get j).dex
      ∧ ((out.get i).dex = (out.get j).dex →
          ∀ qi qj, (out.get i).day_ntl_vlm = some qi →
            (out.get j).day_ntl_vlm = some qj → qj ≤ qi))
    ∧ (∀ k : String × Option ℚ,
        out.filter (fun r => decide ((r.dex, r.day_ntl_vlm) = k))
          = rows.filter (fun r => decide ((r.dex, r.day_ntl_vlm) = k))) := by
  obtain ⟨rows2, hrows2, hsorteq, _⟩ := getAllMarkets_eq_sort e out hout
  rw [hrows] at hrows2
  injection hrows2 with hreq
  subst hreq
  subst hsorteq
  constructor
  · intro i j hij
    have hs : List.Sorted rowLE (List.insertionSort rowLE rows) :=
      List.sorted_insertionSort rowLE rows
    have hrel : rowLE (List.get _ i) (List.get _ j) :=
      List.pairwise_iff_get.1 hs i j hij
    simp only [rowLE, Bool.or_eq_true, Bool.and_eq_true, decide_eq_true_eq,
      strLtb_iff_string_lt] at hrel
    rcases hrel with hlt | ⟨heq, hv⟩
    · exact ⟨le_of_lt hlt, fun heq2 => absurd (heq2 ▸ hlt) (lt_irrefl _)⟩
    · refine ⟨le_of_eq heq, fun _ qi qj hqi hqj => ?_⟩
      rw [hqi, hqj] at hv
      simpa [volLEb] using hv
  · intro k
    refine filter_insertionSort rowLE _ (fun x y hx hy => ?_) rows
    simp only [decide_eq_true_eq] at hx hy
    have hxy := hx.trans hy.symm
    rw [Prod.mk.injEq] at hxy
    exact rowLE_of_key_eq x y hxy.1 hxy.2

/-- A sub-exchange used for the sorting witness. -/
def dexS : Dex := ⟨"a", none, "", none⟩

/-- Sorting witness input: one sub-exchange with two markets of 24h
volumes 50 and 200. -/
def envSortW : Env :=
  { pf := fun _ => none, rawDexes := [some dexS],
    fetchRaw := fun _ => some
      ([⟨"A1", false, none, none, none⟩, ⟨"A2", false, none, none, none⟩],
       [some ⟨none, none, none, some (.num 50), none, none⟩,
        some ⟨none, none, none, some (.num 200), none, none⟩]),
    candles := fun _ => none, isoParse := fun _ => none,
    cache0 := fun _ => none, nowMs := 0 }

/-- Aggregated row of volume 50 from the sorting witness. -/
def rowSortA : Row :=
  ⟨"a", "a", "", "A1", "A1", none, none, some 50, 0, none, none, none,
    none, none, none, none⟩

/-- Aggregated row of volume 200 from the sorting witness. -/
def rowSortB : Row :=
  ⟨"a", "a", "", "A2", "A2", none, none, some 200, 0, none, none, none,
    none, none, none, none⟩

unseal Rat.mul Rat.inv in
/-- Witness for C5: the two-market input is returned volume-descending,
and filtering by any key matches the pre-sort rows. -/
theorem aggregate_sort_spec_witness :
    (∀ (i j : Fin ([rowSortB, rowSortA] : List Row).length), (i : ℕ) < (j : ℕ) →
      (([rowSortB, rowSortA] : List Row).get i).dex
          ≤ (([rowSortB, rowSortA] : List Row).get j).dex
      ∧ ((([rowSortB, rowSortA] : List Row).get i).dex
            = (([rowSortB, rowSortA] : List Row).get j).dex →
          ∀ qi qj, (([rowSortB, rowSortA] : List Row).get i).day_ntl_vlm = some qi →
            (([rowSortB, rowSortA] : List Row).get j).day_ntl_vlm = some qj → qj ≤ qi))
    ∧ (∀ k : String × Option ℚ,
        ([rowSortB, rowSortA] : List Row).filter
            (fun r => decide ((r.dex, r.day_ntl_vlm) = k))
          = ([rowSortA, rowSortB] : List Row).filter
            (fun r => decide ((r.dex, r.day_ntl_vlm) = k))) :=
  aggregate_sort_spec envSortW [rowSortA, rowSortB] [rowSortB, rowSortA]
    (by decide) (by decide)

/-- Under the real behaviour of `float` on the empty string (it raises),
the `float(v or 0)` coercion equals parse-or-zero. -/
theorem coerceFloat_eq_getD (pf : String → Option ℚ) (hpf : pf "" = none)
    (v : Option PyNumVal) : coerceFloat pf v = (toFloatOpt pf v).getD 0 := by
  cases v with
  | none => rfl
  | some x =>
    cases x with
    | num q =>
      by_cases hq : q = 0
      · subst hq; simp [coerceFloat, pyTruthy, toFloatOpt, parseVal]
      · simp [coerceFloat, pyTruthy, hq, toFloatOpt, parseVal]
    | str s =>
      by_cases hs : s = ""
      · subst hs; simp [coerceFloat, pyTruthy, toFloatOpt, parseVal, hpf]
      · simp [coerceFloat, pyTruthy, hs, toFloatOpt, parseVal]
    | null => simp [coerceFloat, pyTruthy, toFloatOpt, parseVal]

/-- A sub-exchange for the open-interest counterexample. -/
def dexN : Dex := ⟨"d", none, "", none⟩

/-- Aggregation input with one market whose native open interest parses to
-5 and whose mark price parses to 2. -/
def envC7 : Env :=
  { pf := fun _ => none, rawDexes := [some dexN],
    fetchRaw := fun _ => some ([⟨"X", false, none, none, none⟩],
      [some ⟨none, some (.num (-5)), none, none, some (.num 2), none⟩]),
    candles := fun _ => none, isoParse := fun _ => none,
    cache0 := fun _ => none, nowMs := 0 }

unseal Rat.mul Rat.inv in
/-- Counterexample to C7 as stated: with native open interest and mark
price both present and parsing as numbers (-5 and 2), the aggregated row's
`open_interest_usd` is -10, which is negative. -/
theorem open_interest_usd_negative_cex :
    (getAllMarkets envC7).map (fun rs => rs.map Row.open_interest)
      = .ok [(-10 : ℚ)]
    ∧ toFloatOpt envC7.pf (some (.num (-5))) = some (-5)
    ∧ toFloatOpt envC7.pf (some (.num 2)) = some 2
    ∧ ¬ (0 ≤ (-10 : ℚ)) := by
  exact ⟨by decide, rfl, rfl, by norm_num⟩

/-- C7 (amended): for every aggregated row, `open_interest_usd` equals the
product of the coerced native open interest and mark price; whenever both
are present and parse as numbers it equals their exact product — hence it
is non-negative provided both parsed values are non-negative — and in
every other case (either field absent, null, falsy or unparsable) the
failing factor degrades to 0 so the product is 0, with no error raised. -/
theorem open_interest_usd_spec (pf : String → Option ℚ) (hpf : pf "" = none) :
    (∀ v1 v2 q1 q2, toFloatOpt pf v1 = some q1 → toFloatOpt pf v2 = some q2 →
      coerceFloat pf v1 * coerceFloat pf v2 = q1 * q2
      ∧ (0 ≤ q1 → 0 ≤ q2 → 0 ≤ coerceFloat pf v1 * coerceFloat pf v2))
    ∧ (∀ v1 v2, toFloatOpt pf v1 = none ∨ toFloatOpt pf v2 = none →
        coerceFloat pf v1 * coerceFloat pf v2 = 0)
    ∧ (∀ e rows, e.pf = pf → getAllMarketsRows e = .ok rows →
        ∀ x ∈ rows, ∃ m : Market,
          x.open_interest = coerceFloat pf m.open_interest * coerceFloat pf m.mark_px) := by
  refine ⟨?_, ?_, ?_⟩
  · intro v1 v2 q1 q2 h1 h2
    rw [coerceFloat_eq_getD pf hpf, coerceFloat_eq_getD pf hpf, h1, h2]
    exact ⟨rfl, fun hq1 hq2 => mul_nonneg hq1 hq2⟩
  · intro v1 v2 h
    rcases h with h | h
    · rw [coerceFloat_eq_getD pf hpf v1, h]
      simp
    · rw [coerceFloat_eq_getD pf hpf v2, h]
      simp
  · intro e rows hepf hrows x hx
    obtain ⟨r, hr, rfl⟩ := mem_getAllMarketsRows e rows hrows x hx
    obtain ⟨d, hd, u, cs, hfr, m, hm, rfl⟩ := mem_rawRowsOf e r hr
    exact ⟨m, by rw [← hepf]; rfl⟩

/-- Witness for C7 (amended): two parsing, non-negative inputs give their
exact non-negative product. -/
theorem open_interest_usd_spec_witness :
    coerceFloat (fun _ => none) (some (.num 3))
        * coerceFloat (fun _ => none) (some (.num 2)) = 3 * 2
    ∧ (0 ≤ (3 : ℚ) → 0 ≤ (2 : ℚ) →
        0 ≤ coerceFloat (fun _ => none) (some (.num 3))
          * coerceFloat (fun _ => none) (some (.num 2))) :=
  (open_interest_usd_spec (fun _ => none) rfl).1
    (some (.num 3)) (some (.num 2)) 3 2 rfl rfl

/-- A binding of the per-pair cap fold is either inherited or produced by
a valid pair whose cap value parsed. -/
theorem capPairsFold_lookup (pf : String → Option ℚ) (ps : List CapPair) :
    ∀ (lk : Dct ℚ) (a : String) (q : ℚ),
      (ps.foldl (capStep pf) lk) a = some q →
      lk a = some q
      ∨ ∃ p ∈ ps, ∃ pv, p = CapPair.pair a pv ∧ parseVal pf pv = some q := by
  induction ps with
  | nil => intro lk a q h; exact Or.inl h
  | cons p ps ih =>
    intro lk a q h
    rw [List.foldl_cons] at h
    rcases ih (capStep pf lk p) a q h with hbase | ⟨p2, hp2, pv, hpe, hpv⟩
    · cases p with
      | null => exact Or.inl hbase
      | short => exact Or.inl hbase
      | pair b pv =>
        cases hparse : parseVal pf pv with
        | none =>
          rw [capStep, hparse] at hbase
          exact Or.inl hbase
        | some qv =>
          rw [capStep, hparse] at hbase
          by_cases hab : a = b
          · subst hab
            have hbase2 : some qv = some q := by simpa [dctInsert] using hbase
            injection hbase2 with hqq
            exact Or.inr ⟨CapPair.pair a pv, List.mem_cons_self .., pv, rfl,
              by rw [hparse, hqq]⟩
          · have hbase2 : lk a = some q := by simpa [dctInsert, hab] using hbase
            exact Or.inl hbase2
    · exact Or.inr ⟨p2, List.mem_cons_of_mem _ hp2, pv, hpe, hpv⟩

/-- A binding of the flattened cap lookup comes from some discovered DEX's
cap list, through a valid pair whose cap value parsed. -/
theorem capDexFold_lookup (pf : String → Option ℚ) (ds : List Dex) :
    ∀ (lk : Dct ℚ) (a : String) (q : ℚ),
      (ds.foldl (addDexCaps pf) lk) a = some q →
      lk a = some q
      ∨ ∃ d ∈ ds, ∃ p ∈ d.assetToStreamingOiCap.getD [], ∃ pv,
          p = CapPair.pair a pv ∧ parseVal pf pv = some q := by
  induction ds with
  | nil => intro lk a q h; exact Or.inl h
  | cons d ds ih =>
    intro lk a q h
    rw [List.foldl_cons] at h
    rcases ih _ a q h with hbase | ⟨d2, hd2, rest⟩
    · rcases capPairsFold_lookup pf _ lk a q hbase with h1 | ⟨p, hp, pv, hpe, hpv⟩
      · exact Or.inl h1
      · exact Or.inr ⟨d, List.mem_cons_self .., p, hp, pv, hpe, hpv⟩
    · exact Or.inr ⟨d2, List.mem_cons_of_mem _ hd2, rest⟩

/-- The fields of a finished row, stated on its construction. -/
theorem finalize_mkRawRow_fields (e : Env) (lk : Dct ℚ) (dexName : String)
    (info : Option (String × String)) (m : Market) :
    (finalizeRow e (mkRawRow e.pf lk dexName info m)).asset = m.asset
    ∧ (finalizeRow e (mkRawRow e.pf lk dexName info m)).open_interest
        = coerceFloat e.pf m.open_interest * coerceFloat e.pf m.mark_px
    ∧ (finalizeRow e (mkRawRow e.pf lk dexName info m)).oi_cap_pct
        = (match lk m.asset with
           | some c =>
             if 0 < c then
               some ((coerceFloat e.pf m.open_interest
                 * coerceFloat e.pf m.mark_px) / c * 100)
             else none
           | none => none)
    ∧ (finalizeRow e (mkRawRow e.pf lk dexName info m)).ticker
        = tickerOf m.asset :=
  ⟨rfl, rfl, rfl, rfl⟩

/-- C8: for every aggregated row, the cap-utilization percentage is
present iff a positive cap is known for the row's asset in the flattened
lookup, in which case it equals open_interest_usd divided by the cap times
100; and every cap binding comes from a valid pair whose cap value parsed
(null, short and non-numeric entries are skipped silently). -/
theorem oi_cap_pct_spec (e : Env) (out : List Row)
    (hout : getAllMarkets e = .ok out) :
    (∀ x ∈ out,
      ((∃ c, buildCapLookup e.pf (dexesOf e) x.asset = some c ∧ 0 < c)
          ↔ x.oi_cap_pct ≠ none)
      ∧ (∀ c, buildCapLookup e.pf (dexesOf e) x.asset = some c → 0 < c →
          x.oi_cap_pct = some (x.open_interest / c * 100)))
    ∧ (∀ a q, buildCapLookup e.pf (dexesOf e) a = some q →
        ∃ d ∈ dexesOf e, ∃ p ∈ d.assetToStreamingOiCap.getD [], ∃ pv,
          p = CapPair.pair a pv ∧ parseVal e.pf pv = some q) := by
  constructor
  · intro x hx
    obtain ⟨rows, hrows, _, hmem⟩ := getAllMarkets_eq_sort e out hout
    obtain ⟨r, hr, rfl⟩ := mem_getAllMarketsRows e rows hrows x ((hmem x).1 hx)
    obtain ⟨d, hd, u, cs, hfr, m, hm, rfl⟩ := mem_rawRowsOf e r hr
    have hf := finalize_mkRawRow_fields e (buildCapLookup e.pf (dexesOf e))
      d.name (dexInfoLookup (dexesOf e) d.name) m
    rw [hf.1, hf.2.2.1, hf.2.1]
    constructor
    · cases hc : buildCapLookup e.pf (dexesOf e) m.asset with
      | none =>
        constructor
        · rintro ⟨c, hcc, _⟩
          exact Option.noConfusion hcc
        · intro hne
          exact absurd rfl hne
      | some c =>
        by_cases hpos : 0 < c
        · constructor
          · intro _
            simp [hpos]
          · intro _
            exact ⟨c, rfl, hpos⟩
        · constructor
          · rintro ⟨c2, hcc, hpos2⟩
            injection hcc with hcc2
            exact absurd (by rw [hcc2]; exact hpos2) hpos
          · intro hne
            simp [hpos] at hne
    · intro c hcc hpos
      rw [hcc]
      simp [hpos]
  · intro a q h
    unfold buildCapLookup at h
    rcases capDexFold_lookup e.pf (dexesOf e) dctEmpty a q h with h1 | h2
    · exact absurd h1 (by simp [dctEmpty])
    · exact h2

/-- A sub-exchange carrying an open-interest cap of 50 for asset `AST`. -/
def dexCap : Dex := ⟨"d", none, "", some [.pair "AST" (.num 50)]⟩

/-- Aggregation input with one capped market: open interest 5, mark price
2, cap 50. -/
def envCap : Env :=
  { pf := fun _ => none, rawDexes := [some dexCap],
    fetchRaw := fun _ => some ([⟨"AST", false, none, none, none⟩],
      [some ⟨none, some (.num 5), none, none, some (.num 2), none⟩]),
    candles := fun _ => none, isoParse := fun _ => none,
    cache0 := fun _ => none, nowMs := 0 }

/-- The aggregated row produced by `envCap`: USD open interest 10, cap 50,
utilization 20 percent. -/
def rowCap : Row :=
  ⟨"d", "d", "", "AST", "AST", some 2, none, none, 10, some 50, some 20,
    none, none, none, none, none⟩

unseal Rat.mul Rat.inv in
/-- Witness for C8: the capped market's row carries utilization
`10 / 50 * 100 = 20`, present exactly because its positive cap is known. -/
theorem oi_cap_pct_spec_witness :
    (∀ x ∈ ([rowCap] : List Row),
      ((∃ c, buildCapLookup envCap.pf (dexesOf envCap) x.asset = some c ∧ 0 < c)
          ↔ x.oi_cap_pct ≠ none)
      ∧ (∀ c, buildCapLookup envCap.pf (dexesOf envCap) x.asset = some c → 0 < c →
          x.oi_cap_pct = some (x.open_interest / c * 100)))
    ∧ (∀ a q, buildCapLookup envCap.pf (dexesOf envCap) a = some q →
        ∃ d ∈ dexesOf envCap, ∃ p ∈ d.assetToStreamingOiCap.getD [], ∃ pv,
          p = CapPair.pair a pv ∧ parseVal envCap.pf pv = some q) :=
  oi_cap_pct_spec envCap [rowCap] (by decide)

/-- C9: for every aggregated row, the ticker equals the substring of the
asset identifier after its last colon when the identifier contains a
colon, and the full asset identifier otherwise. -/
theorem ticker_after_last_colon (e : Env) (out : List Row)
    (hout : getAllMarkets e = .ok out) :
    ∀ x ∈ out,
      (x.asset.toList.contains ':' = true → x.ticker = afterLastColon x.asset)
      ∧ (x.asset.toList.contains ':' = false → x.ticker = x.asset) := by
  intro x hx
  obtain ⟨rows, hrows, _, hmem⟩ := getAllMarkets_eq_sort e out hout
  obtain ⟨r, hr, rfl⟩ := mem_getAllMarketsRows e rows hrows x ((hmem x).1 hx)
  obtain ⟨d, hd, u, cs, hfr, m, hm, rfl⟩ := mem_rawRowsOf e r hr
  have hf := finalize_mkRawRow_fields e (buildCapLookup e.pf (dexesOf e))
    d.name (dexInfoLookup (dexesOf e) d.name) m
  rw [hf.1, hf.2.2.2]
  exact tickerOf_spec m.asset

/-- A sub-exchange for the ticker witness. -/
def dexT : Dex := ⟨"t", none, "", none⟩

/-- Aggregation input with one market whose asset id `d:AST` contains a
colon. -/
def envTick : Env :=
  { pf := fun _ => none, rawDexes := [some dexT],
    fetchRaw := fun _ => some ([⟨"d:AST", false, none, none, none⟩], [none]),
    candles := fun _ => none, isoParse := fun _ => none,
    cache0 := fun _ => none, nowMs := 0 }

/-- The aggregated row produced by `envTick`: ticker `AST` from asset
`d:AST`. -/
def rowTick : Row :=
  ⟨"t", "t", "", "d:AST", "AST", none, none, none, 0, none, none, none,
    none, none, none, none⟩

unseal Rat.mul Rat.inv in
/-- Witness for C9: the row for asset `d:AST` carries ticker `AST`, the
substring after the last colon. -/
theorem ticker_after_last_colon_witness :
    rowTick.asset.toList.contains ':' = true
    ∧ rowTick.ticker = afterLastColon rowTick.asset :=
  ⟨by decide,
    (ticker_after_last_colon envTick [rowTick] (by decide) rowTick
      (by decide)).1 (by decide)⟩
